import Mathlib

/-!
Verification of the reviewer-assignment action
(`.github/actions/assign-reviewers/assign_reviewers.py`).

The script's pure logic is embedded as executable Lean functions over
`List Char` (the kernel-friendly image of Python's `str`).  Network
effects (GitHub API calls, the email lookup) are abstracted as explicit
function parameters; the control flow around them is translated
faithfully from the Python source.
-/

/-- Strings are modelled as lists of characters. -/
abbrev Chars := List Char

/-- Convert a Lean string literal to the `Chars` model. -/
def chars (s : String) : Chars := s.data

/-- ASCII whitespace, the characters relevant to Python's `str.strip()` /
`str.split()` for this file format (the format is line-oriented ASCII). -/
def isWS (c : Char) : Bool := c == ' ' || c == '\t' || c == '\r' || c == '\n'

/-- Split a character list at every separator character (separators are
dropped; empty components are kept).  `splitAll p s` always returns at
least one component. -/
def splitAll (p : Char → Bool) : Chars → List Chars
  | [] => [[]]
  | c :: rest =>
    if p c then [] :: splitAll p rest
    else
      match splitAll p rest with
      | t :: ts => (c :: t) :: ts
      | [] => [[c]]

/-- Python `str.strip()`: drop leading and trailing whitespace. -/
def pyStrip (l : Chars) : Chars :=
  ((l.dropWhile isWS).reverse.dropWhile isWS).reverse

/-- Python `str.split()` with no argument: split on whitespace runs and
drop the empty components. -/
def pySplit (l : Chars) : List Chars :=
  (splitAll isWS l).filter (fun t => !t.isEmpty)

/-- The lines of a file's contents, as Python's line iteration produces
them (modulo trailing `\n`, which `strip()` removes anyway). -/
def splitLines (contents : Chars) : List Chars :=
  splitAll (fun c => c == '\n') contents

/-- A parsed rule: `(pattern, reviewers)` as built by
`parse_reviewers_file`. -/
abbrev RuleT := Chars × List Chars

/-- The body of the `for line in f` loop of `parse_reviewers_file`:
strip the line, skip blanks and `#` comments, split on whitespace, skip
lines with fewer than two tokens, otherwise append
`(parts[0], parts[1:])`. -/
def parseLineStep (rules : List RuleT) (line : Chars) : List RuleT :=
  let l := pyStrip line
  if l.isEmpty || l.head? == some '#' then rules
  else
    match pySplit l with
    | p :: o :: os => rules ++ [(p, o :: os)]
    | _ => rules

/-- `parse_reviewers_file`, applied to the file's contents (the `open` /
file-read I/O is outside the model). -/
def parse_reviewers_file (contents : Chars) : List RuleT :=
  (splitLines contents).foldl parseLineStep []

/-- The effect of one loop iteration of `parse_reviewers_file`, as an
optional rule. -/
def parseLineOpt (line : Chars) : Option RuleT :=
  let l := pyStrip line
  if l.isEmpty || l.head? == some '#' then none
  else
    match pySplit l with
    | p :: o :: os => some (p, o :: os)
    | _ => none

/-- Per-line parsing as the specification words it: skip blank lines and
lines whose first non-whitespace character is `#`; split the remaining
line on whitespace; the first token is the pattern, the remaining tokens
the owners; fewer than two tokens ⇒ skipped. -/
def parseLineSpec (line : Chars) : Option RuleT :=
  if line.all isWS then none
  else if (line.dropWhile isWS).head? == some '#' then none
  else
    match pySplit line with
    | p :: o :: os => some (p, o :: os)
    | _ => none

/-- One item of a glob character class: a single character or a
`lo-hi` range. -/
inductive ClassItem where
  | single (c : Char)
  | span (lo hi : Char)
deriving DecidableEq

/-- Parse the inside of a bracket class into items, treating `a-b` as a
range and a leading or trailing `-` as a literal, as Python's
`fnmatch.translate` does. -/
def parseClassItems : Chars → List ClassItem
  | [] => []
  | c1 :: '-' :: c2 :: rest => ClassItem.span c1 c2 :: parseClassItems rest
  | c :: rest => ClassItem.single c :: parseClassItems rest

/-- Does one class item match a character?  A backwards range matches
nothing. -/
def classItemMatches (c : Char) : ClassItem → Bool
  | ClassItem.single d => c == d
  | ClassItem.span lo hi => decide (lo ≤ c) && decide (c ≤ hi)

/-- Scan forward for the `]` closing a bracket class, returning the raw
contents and the remaining pattern; `none` when the class is never
closed (Python then treats the `[` as a literal). -/
def splitAtClose : Chars → Option (Chars × Chars)
  | [] => none
  | ']' :: r => some ([], r)
  | c :: r =>
    match splitAtClose r with
    | some pr => some (c :: pr.1, pr.2)
    | none => none

/-- Interpret the pattern just after a `[`: an optional `!` negation,
then the class body (a `]` in first position is literal), per
`fnmatch.translate`.  Returns `(negated, items, rest-of-pattern)`. -/
def scanClass (ps : Chars) : Option (Bool × List ClassItem × Chars) :=
  match ps with
  | '!' :: ']' :: r =>
    match splitAtClose r with
    | some pr => some (true, parseClassItems (']' :: pr.1), pr.2)
    | none => none
  | '!' :: r =>
    match splitAtClose r with
    | some pr => some (true, parseClassItems pr.1, pr.2)
    | none => none
  | ']' :: r =>
    match splitAtClose r with
    | some pr => some (false, parseClassItems (']' :: pr.1), pr.2)
    | none => none
  | r =>
    match splitAtClose r with
    | some pr => some (false, parseClassItems pr.1, pr.2)
    | none => none

/-- Core of Python's `fnmatch.fnmatch name pat` (POSIX `normcase` is the
identity): `*` matches ANY character sequence, `/` included, because
`translate` turns it into the regex `.*`; `?` matches one character;
`[...]` matches a class; all other characters literally.  The first
argument is fuel, always called with more fuel than pattern plus name
length, so the `0` case is unreachable. -/
def fnmatchAux : Nat → Chars → Chars → Bool
  | 0, _, _ => false
  | _ + 1, [], s => s.isEmpty
  | fuel + 1, '*' :: ps, s =>
    fnmatchAux fuel ps s ||
      (match s with
       | [] => false
       | _ :: s2 => fnmatchAux fuel ('*' :: ps) s2)
  | fuel + 1, '?' :: ps, s =>
    (match s with
     | [] => false
     | _ :: s2 => fnmatchAux fuel ps s2)
  | fuel + 1, '[' :: ps, s =>
    (match scanClass ps with
     | some (neg, items, rest) =>
       (match s with
        | [] => false
        | c :: s2 => (items.any (classItemMatches c) != neg) && fnmatchAux fuel rest s2)
     | none =>
       (match s with
        | [] => false
        | c :: s2 => (c == '[') && fnmatchAux fuel ps s2))
  | fuel + 1, p :: ps, s =>
    (match s with
     | [] => false
     | c :: s2 => (c == p) && fnmatchAux fuel ps s2)

/-- `fnmatch(name, pat)` with enough fuel for the recursion (every call
shrinks pattern-length plus name-length). -/
def fnmatch (name pat : Chars) : Bool :=
  fnmatchAux (pat.length + name.length + 1) pat name

/-- Python `pattern.lstrip('/')`: drop every leading slash. -/
def lstripSlashes (p : Chars) : Chars := p.dropWhile (fun c => c == '/')

/-- Python `pattern.rstrip('/')`: drop every trailing slash. -/
def rstripSlashes (p : Chars) : Chars :=
  (p.reverse.dropWhile (fun c => c == '/')).reverse

/-- The per-rule test of `match_files_to_reviewers`: normalize the
pattern by `lstrip('/')`; a normalized pattern ending in `/` is a
directory pattern (`rstrip('/')` it and test `file == dir` or
`file.startswith(dir + '/')`); otherwise match with `fnmatch`. -/
def matchesRule (file_path pat : Chars) : Bool :=
  let normalized := lstripSlashes pat
  if normalized.getLast? == some '/' then
    let dir := rstripSlashes normalized
    (dir ++ ['/']).isPrefixOf file_path || file_path == dir
  else
    fnmatch file_path normalized

/-- The inner loop of `match_files_to_reviewers` for one changed file:
start from `matched_reviewers = []` and overwrite it with the owners of
every matching rule, in rule order. -/
def file_owners (file_path : Chars) (rules : List RuleT) : List Chars :=
  rules.foldl (fun acc r => if matchesRule file_path r.1 then r.2 else acc) []

/-- The `seen`-set deduplication loop at the end of
`match_files_to_reviewers`: keep the first occurrence of every
reviewer token. -/
def dedupAux (seen : List Chars) : List Chars → List Chars
  | [] => []
  | r :: rest =>
    if seen.contains r then dedupAux seen rest
    else r :: dedupAux (r :: seen) rest

/-- `match_files_to_reviewers`: concatenate each file's winning owner
list, then deduplicate preserving first occurrence. -/
def match_files_to_reviewers (changed_files : List Chars) (rules : List RuleT) :
    List Chars :=
  dedupAux [] (changed_files.foldl (fun acc f => acc ++ file_owners f rules) [])

/-- Character class of the local part of the email regex
`^[a-zA-Z0-9._%+-]+@[a-zA-Z0-9.-]+\.[a-zA-Z]{2,}$`. -/
def isLocalChar (c : Char) : Bool :=
  c.isAlpha || c.isDigit || c == '.' || c == '_' || c == '%' || c == '+' || c == '-'

/-- Character class of the domain part of the email regex. -/
def isDomainChar (c : Char) : Bool :=
  c.isAlpha || c.isDigit || c == '.' || c == '-'

/-- `email_pattern.match(reviewer)` for the anchored regex
`^[a-zA-Z0-9._%+-]+@[a-zA-Z0-9.-]+\.[a-zA-Z]{2,}$`.  Neither character
class contains `@`, so a match needs exactly one `@`; the alphabetic
tail `[a-zA-Z]{2,}$` cannot contain `.`, so the mandatory `\.` is the
last dot of the domain.  Matchability is therefore: split at the sole
`@`; non-empty all-local left part; right part decomposes at its last
dot into a non-empty all-domain-chars part and an all-alphabetic tail
of length at least 2.  (Tokens come from whitespace splitting, so the
`$`-before-final-newline subtlety of Python regexes cannot arise.) -/
def emailMatch (s : Chars) : Bool :=
  match splitAll (fun c => c == '@') s with
  | [loc, dom] =>
    !loc.isEmpty && loc.all isLocalChar &&
      (let revd := dom.reverse
       let tldRev := revd.takeWhile (fun c => !(c == '.'))
       match revd.drop tldRev.length with
       | '.' :: dRev =>
         !dRev.isEmpty && dRev.all isDomainChar &&
           decide (2 ≤ tldRev.length) && tldRev.all Char.isAlpha
       | _ => false)
  | _ => false

/-- The loop body of `resolve_reviewers` for one reviewer token.  The
state is the `(resolved, teams)` pair of accumulated lists; `lookup`
abstracts `email_to_username` (its network effects included), returning
`none` when the email cannot be resolved. -/
def resolveStep (lookup : Chars → Option Chars) (st : List Chars × List Chars)
    (r : Chars) : List Chars × List Chars :=
  if r.head? == some '@' && r.contains '/' then (st.1, st.2 ++ [r.tail])
  else if r.head? == some '@' then (st.1 ++ [r.tail], st.2)
  else if emailMatch r then
    match lookup r with
    | some u => (st.1 ++ [u], st.2)
    | none => st
  else (st.1 ++ [r], st.2)

/-- `resolve_reviewers`: fold the classification step over the tokens,
returning the `(resolved, teams)` lists. -/
def resolve_reviewers (lookup : Chars → Option Chars) (reviewers : List Chars) :
    List Chars × List Chars :=
  reviewers.foldl (resolveStep lookup) ([], [])

/-- How one token is classified by `resolve_reviewers`. -/
inductive OwnerClass where
  | team (t : Chars)
  | user (u : Chars)
  | unresolvedEmail
deriving DecidableEq

/-- The classification `resolve_reviewers` applies to a single token, in
the source's branch order: `@`-initial with a `/` ⇒ team (with the `@`
stripped); `@`-initial ⇒ username (with the `@` stripped); matching the
email regex ⇒ email, resolved through the lookup (dropped when the
lookup fails); anything else ⇒ username, unchanged. -/
def classify (lookup : Chars → Option Chars) (r : Chars) : OwnerClass :=
  if r.head? == some '@' && r.contains '/' then OwnerClass.team r.tail
  else if r.head? == some '@' then OwnerClass.user r.tail
  else if emailMatch r then
    match lookup r with
    | some u => OwnerClass.user u
    | none => OwnerClass.unresolvedEmail
  else OwnerClass.user r

/-- The username produced by a classification, if any. -/
def userPart : OwnerClass → Option Chars
  | OwnerClass.user u => some u
  | _ => none

/-- The team produced by a classification, if any. -/
def teamPart : OwnerClass → Option Chars
  | OwnerClass.team t => some t
  | _ => none

/-- One response of the GitHub user-search endpoint, as observed by
`email_to_username`: a user found, an empty result, an HTTP 403
(rate limit), or any other HTTP error. -/
inductive UserSearch where
  | found (u : Chars)
  | notFound
  | rateLimited
  | httpError
deriving DecidableEq

/-- Observable trace of `email_to_username`: its return value, how many
user-search requests were issued, and the total seconds slept in
rate-limit backoff. -/
structure LookupTrace where
  result : Option Chars
  attempts : Nat
  sleptSeconds : Nat
deriving DecidableEq

/-- Recursion core of `email_to_username`.  `search` maps the attempt
number (the Python `retry_count`) to the endpoint's response; `commit`
is the outcome of the strategy-2 commit-search fallback (`none` when
`repo` is absent or the search finds nothing).  The Python guard
`retry_count < 3` is carried as the structurally decreasing
`retriesLeft = 3 - retry_count`, which is positive exactly when the
guard holds. -/
def email_to_username_go (search : Nat → UserSearch) (commit : Option Chars) :
    Nat → Nat → LookupTrace
  | retry_count, retriesLeft =>
    match search retry_count with
    | UserSearch.found u => ⟨some u, 1, 0⟩
    | UserSearch.rateLimited =>
      match retriesLeft with
      | left + 1 =>
        let rest := email_to_username_go search commit (retry_count + 1) left
        ⟨rest.result, rest.attempts + 1, rest.sleptSeconds + 60⟩
      | 0 => ⟨commit, 1, 0⟩
    | UserSearch.notFound => ⟨commit, 1, 0⟩
    | UserSearch.httpError => ⟨commit, 1, 0⟩

/-- `email_to_username email token repo retry_count`, with the network
abstracted: on a found user return it; on a 403 with `retry_count < 3`
sleep 60 seconds and retry at `retry_count + 1`; otherwise (no result,
other error, or retry budget spent) fall through to the commit-search
fallback, whose failure yields `None` with a warning. -/
def email_to_username (search : Nat → UserSearch) (commit : Option Chars)
    (retry_count : Nat) : LookupTrace :=
  email_to_username_go search commit retry_count (3 - retry_count)

/-- What `assign_reviewers` does before/instead of the POST request. -/
inductive AssignAction where
  | nothingToAssign
  | submit (reviewers teams : List Chars)
deriving DecidableEq

/-- The pure head of `assign_reviewers`: drop the PR author from the
reviewer list by exact string comparison; when both lists are then
empty, report and return without any API call; otherwise POST the
filtered reviewers and the (untouched) teams. -/
def assign_reviewers (reviewers teams : List Chars) (pr_author : Chars) :
    AssignAction :=
  let rs := reviewers.filter (fun r => r != pr_author)
  if rs.isEmpty && teams.isEmpty then AssignAction.nothingToAssign
  else AssignAction.submit rs teams

/-- The claim's reading of the pattern normalization: strip exactly one
leading `/`, leaving the rest of the matcher unchanged. -/
def stripOneSlash (p : Chars) : Chars :=
  match p with
  | '/' :: rest => rest
  | _ => p

/-- Modelled from the spec: `matchesRule` with the normalization the
claim describes (exactly one leading slash removed) in place of the
source's `lstrip('/')`. -/
def matchesRuleStripOne (file_path pat : Chars) : Bool :=
  let normalized := stripOneSlash pat
  if normalized.getLast? == some '/' then
    let dir := rstripSlashes normalized
    (dir ++ ['/']).isPrefixOf file_path || file_path == dir
  else
    fnmatch file_path normalized

/-! ### Helper lemmas -/

lemma splitAll_ne_nil (p : Char → Bool) (l : Chars) : splitAll p l ≠ [] := by
  induction l with
  | nil => simp [splitAll]
  | cons c rest ih =>
    unfold splitAll
    by_cases h : p c = true
    · simp [h]
    · simp only [h]
      cases hs : splitAll p rest with
      | nil => simp
      | cons t ts => simp

lemma splitAll_snoc_sep (p : Char → Bool) (c : Char) (hc : p c = true) (l : Chars) :
    splitAll p (l ++ [c]) = splitAll p l ++ [[]] := by
  induction l with
  | nil => simp [splitAll, hc]
  | cons a rest ih =>
    unfold splitAll
    by_cases h : p a = true
    · simp [h, ih]
    · simp only [h, List.cons_append]
      rw [ih]
      cases hs : splitAll p rest with
      | nil => exact absurd hs (splitAll_ne_nil p rest)
      | cons t ts => simp

lemma pySplit_snoc_ws (c : Char) (hc : isWS c = true) (l : Chars) :
    pySplit (l ++ [c]) = pySplit l := by
  unfold pySplit
  rw [splitAll_snoc_sep isWS c hc l, List.filter_append]
  simp

lemma pySplit_cons_ws (c : Char) (hc : isWS c = true) (l : Chars) :
    pySplit (c :: l) = pySplit l := by
  have h : splitAll isWS (c :: l) = [] :: splitAll isWS l := by
    simp only [splitAll]
    rw [if_pos hc]
  unfold pySplit
  rw [h]
  simp

lemma pySplit_dropWhile (l : Chars) : pySplit (l.dropWhile isWS) = pySplit l := by
  induction l with
  | nil => rfl
  | cons c rest ih =>
    rw [List.dropWhile_cons]
    by_cases h : isWS c = true
    · rw [if_pos h, ih, pySplit_cons_ws c h rest]
    · rw [if_neg h]

lemma pySplit_rstrip (r : Chars) :
    pySplit ((r.dropWhile isWS).reverse) = pySplit r.reverse := by
  induction r with
  | nil => rfl
  | cons c rest ih =>
    rw [List.dropWhile_cons]
    by_cases h : isWS c = true
    · rw [if_pos h, ih, List.reverse_cons, pySplit_snoc_ws c h rest.reverse]
    · rw [if_neg h]

lemma pySplit_pyStrip (l : Chars) : pySplit (pyStrip l) = pySplit l := by
  unfold pyStrip
  rw [pySplit_rstrip (l.dropWhile isWS).reverse, List.reverse_reverse,
    pySplit_dropWhile]

lemma dropWhile_head_not (p : Char → Bool) :
    ∀ (l : Chars) (x : Char) (xs : Chars), l.dropWhile p = x :: xs → p x = false := by
  intro l
  induction l with
  | nil => intro x xs h; simp at h
  | cons c rest ih =>
    intro x xs h
    rw [List.dropWhile_cons] at h
    by_cases hc : p c = true
    · rw [if_pos hc] at h; exact ih x xs h
    · rw [if_neg hc] at h
      cases h
      exact Bool.eq_false_iff.mpr hc

lemma pyStrip_eq_nil_iff (l : Chars) : pyStrip l = [] ↔ l.all isWS = true := by
  unfold pyStrip
  rw [List.reverse_eq_nil_iff, List.dropWhile_eq_nil_iff, List.all_eq_true]
  constructor
  · intro h
    cases hm : l.dropWhile isWS with
    | nil => exact List.dropWhile_eq_nil_iff.mp hm
    | cons x xs =>
      have hx : isWS x = false := dropWhile_head_not isWS l x xs hm
      have : isWS x = true := h x (by rw [hm]; simp)
      rw [hx] at this
      exact absurd this (by simp)
  · intro h x hx
    have : l.dropWhile isWS = [] := List.dropWhile_eq_nil_iff.mpr h
    rw [this] at hx
    simp at hx

lemma pyStrip_head (l : Chars) : (pyStrip l).head? = (l.dropWhile isWS).head? := by
  unfold pyStrip
  cases hm : l.dropWhile isWS with
  | nil => simp
  | cons c rest =>
    have hc : isWS c = false := dropWhile_head_not isWS l c rest hm
    show (((c :: rest).reverse.dropWhile isWS).reverse).head? = _
    rw [List.reverse_cons, List.dropWhile_append]
    by_cases he : (rest.reverse.dropWhile isWS).isEmpty = true
    · rw [if_pos he]
      simp [List.dropWhile_cons, hc]
    · rw [if_neg he]
      simp

lemma parseLineOpt_eq_parseLineSpec (line : Chars) :
    parseLineOpt line = parseLineSpec line := by
  unfold parseLineOpt parseLineSpec
  by_cases hb : line.all isWS = true
  · have hnil : pyStrip line = [] := (pyStrip_eq_nil_iff line).mpr hb
    simp [hnil, hb]
  · have hne : ¬ pyStrip line = [] := fun hc => hb ((pyStrip_eq_nil_iff line).mp hc)
    have hie : (pyStrip line).isEmpty = false := by
      rw [Bool.eq_false_iff]
      intro hc
      exact hne (List.isEmpty_iff.mp hc)
    by_cases hc : (line.dropWhile isWS).head? = some '#'
    · have hch : (pyStrip line).head? = some '#' := by rw [pyStrip_head]; exact hc
      simp [hb, hc, hie, hch]
    · have hch : ¬ (pyStrip line).head? = some '#' := by rw [pyStrip_head]; exact hc
      simp only [hie, Bool.false_or]
      rw [pySplit_pyStrip]
      simp [hb, hc, hch]

lemma parseLineStep_eq (rules : List RuleT) (line : Chars) :
    parseLineStep rules line = rules ++ (parseLineOpt line).toList := by
  unfold parseLineStep parseLineOpt
  by_cases h : ((pyStrip line).isEmpty || (pyStrip line).head? == some '#') = true
  · simp [h]
  · cases hs : pySplit (pyStrip line) with
    | nil => simp [h, hs]
    | cons p rest =>
      cases rest with
      | nil => simp [h, hs]
      | cons o os => simp [h, hs]

lemma foldl_parseLineStep (lines : List Chars) :
    ∀ init, lines.foldl parseLineStep init = init ++ lines.filterMap parseLineOpt := by
  induction lines with
  | nil => intro init; simp
  | cons a ls ih =>
    intro init
    rw [List.foldl_cons, ih, parseLineStep_eq, List.filterMap_cons]
    cases h : parseLineOpt a with
    | none => simp
    | some r => simp

lemma parse_eq_filterMap (contents : Chars) :
    parse_reviewers_file contents = (splitLines contents).filterMap parseLineSpec := by
  unfold parse_reviewers_file
  rw [foldl_parseLineStep, List.nil_append]
  exact List.filterMap_congr (fun line _ => parseLineOpt_eq_parseLineSpec line)

lemma pySplit_mem_ne_nil {t : Chars} {l : Chars} (h : t ∈ pySplit l) : t ≠ [] := by
  unfold pySplit at h
  have := (List.mem_filter.mp h).2
  simp at this
  intro hc
  rw [hc] at this
  simp at this

lemma foldl_overwrite (f : Chars) (rules : List RuleT) :
    ∀ init, rules.foldl (fun acc r => if matchesRule f r.1 then r.2 else acc) init =
      ((rules.reverse.find? (fun r => matchesRule f r.1)).map Prod.snd).getD init := by
  induction rules with
  | nil => intro init; simp
  | cons a rs ih =>
    intro init
    rw [List.foldl_cons, ih, List.reverse_cons, List.find?_append]
    cases hf : rs.reverse.find? (fun r => matchesRule f r.1) with
    | some r => simp
    | none =>
      simp only [List.find?, Option.none_or]
      by_cases hm : matchesRule f a.1 = true
      · simp [hm]
      · simp [hm]

lemma dedupAux_not_seen :
    ∀ (l : List Chars) (seen : List Chars) (x : Chars),
      x ∈ dedupAux seen l → x ∉ seen := by
  intro l
  induction l with
  | nil => intro seen x h; simp [dedupAux] at h
  | cons r rest ih =>
    intro seen x h
    unfold dedupAux at h
    by_cases hc : seen.contains r = true
    · rw [if_pos hc] at h
      exact ih seen x h
    · rw [if_neg hc] at h
      rcases List.mem_cons.mp h with he | hm
      · subst he
        intro hmem
        apply hc
        simp [List.contains, hmem]
      · intro hmem
        exact ih (r :: seen) x hm (List.mem_cons_of_mem r hmem)

lemma dedupAux_nodup : ∀ (l : List Chars) (seen : List Chars),
    (dedupAux seen l).Nodup := by
  intro l
  induction l with
  | nil => intro seen; simp [dedupAux]
  | cons r rest ih =>
    intro seen
    unfold dedupAux
    by_cases hc : seen.contains r = true
    · rw [if_pos hc]; exact ih seen
    · rw [if_neg hc]
      refine List.nodup_cons.mpr ⟨?_, ih (r :: seen)⟩
      intro hmem
      exact dedupAux_not_seen rest (r :: seen) r hmem (List.mem_cons_self r seen)

lemma resolveStep_singleton (lookup : Chars → Option Chars) (t : Chars) :
    resolveStep lookup ([], []) t =
      ((userPart (classify lookup t)).toList, (teamPart (classify lookup t)).toList) := by
  unfold resolveStep classify
  by_cases h1 : t.head? = some '@' <;>
    by_cases h2 : '/' ∈ t <;>
      by_cases h3 : emailMatch t = true <;>
        cases hk : lookup t <;>
          simp [h1, h2, h3, hk, userPart, teamPart]

lemma resolveStep_append (lookup : Chars → Option Chars) (a b : List Chars) (t : Chars) :
    resolveStep lookup (a, b) t =
      (a ++ (resolveStep lookup ([], []) t).1, b ++ (resolveStep lookup ([], []) t).2) := by
  unfold resolveStep
  by_cases h1 : t.head? = some '@' <;>
    by_cases h2 : '/' ∈ t <;>
      by_cases h3 : emailMatch t = true <;>
        cases hk : lookup t <;>
          simp [h1, h2, h3, hk]

lemma foldl_resolveStep (lookup : Chars → Option Chars) (ts : List Chars) :
    ∀ a b, ts.foldl (resolveStep lookup) (a, b) =
      (a ++ (ts.foldl (resolveStep lookup) ([], [])).1,
       b ++ (ts.foldl (resolveStep lookup) ([], [])).2) := by
  induction ts with
  | nil => intro a b; simp
  | cons t rest ih =>
    intro a b
    rw [List.foldl_cons, List.foldl_cons, resolveStep_append]
    rw [ih (a ++ (resolveStep lookup ([], []) t).1) (b ++ (resolveStep lookup ([], []) t).2)]
    rw [ih (resolveStep lookup ([], []) t).1 (resolveStep lookup ([], []) t).2]
    simp [List.append_assoc]

lemma resolve_filterMap (lookup : Chars → Option Chars) (ts : List Chars) :
    resolve_reviewers lookup ts =
      (ts.filterMap (fun r => userPart (classify lookup r)),
       ts.filterMap (fun r => teamPart (classify lookup r))) := by
  induction ts with
  | nil => rfl
  | cons t rest ih =>
    unfold resolve_reviewers at ih ⊢
    rw [List.foldl_cons, resolveStep_append, foldl_resolveStep, List.nil_append,
      List.nil_append, List.filterMap_cons, List.filterMap_cons]
    rw [ih] at *
    rw [resolveStep_singleton]
    cases hu : userPart (classify lookup t) with
    | none =>
      cases ht : teamPart (classify lookup t) with
      | none => simp [ih]
      | some v => simp [ih]
    | some u =>
      cases ht : teamPart (classify lookup t) with
      | none => simp [ih]
      | some v => simp [ih]

lemma lstripSlashes_idem (p : Chars) : lstripSlashes (lstripSlashes p) = lstripSlashes p := by
  unfold lstripSlashes
  cases h : p.dropWhile (fun c => c == '/') with
  | nil => simp
  | cons c rest =>
    have hc : (c == '/') = false := dropWhile_head_not _ p c rest h
    rw [List.dropWhile_cons, hc]
    simp

/-! ### Claims -/

/-- C1: the matcher scans rules in declaration order, each matching rule's
owner list overwriting the previous winner, so a file's owners are those
of the LAST matching rule (or `[]` when none matches); in particular for
rules `[(*.go, [A]), (cmd/*.go, [B])]` and file `cmd/main.go` the winner
is exactly `[B]`. -/
theorem file_owners_last_match_wins :
    (∀ f rules, file_owners f rules =
      ((rules.reverse.find? (fun r => matchesRule f r.1)).map Prod.snd).getD [])
    ∧ file_owners (chars "cmd/main.go")
        [(chars "*.go", [chars "A"]), (chars "cmd/*.go", [chars "B"])] = [chars "B"] :=
  ⟨fun f rules => foldl_overwrite f rules [], by decide⟩

/-- C2: for every pattern whose matcher-normalized form ends in `/`, the
trailing slashes are stripped to obtain `dir` and the pattern matches a
file exactly when the file equals `dir` or extends it across a `/`
boundary; in particular `docs/` matches `docs/readme.md` and `docs`
itself but not `docs-internal/readme.md`. -/
theorem directory_pattern_boundary :
    (∀ f p, (lstripSlashes p).getLast? = some '/' →
      (matchesRule f p = true ↔
        f = rstripSlashes (lstripSlashes p) ∨
        ∃ rest, f = rstripSlashes (lstripSlashes p) ++ '/' :: rest))
    ∧ matchesRule (chars "docs/readme.md") (chars "docs/") = true
    ∧ matchesRule (chars "docs") (chars "docs/") = true
    ∧ matchesRule (chars "docs-internal/readme.md") (chars "docs/") = false := by
  refine ⟨?_, by decide, by decide, by decide⟩
  intro f p h
  have hcond : ((lstripSlashes p).getLast? == some '/') = true := by simp [h]
  unfold matchesRule
  rw [if_pos hcond, Bool.or_eq_true, List.isPrefixOf_iff_prefix, beq_iff_eq]
  constructor
  · rintro (⟨t, ht⟩ | he)
    · refine Or.inr ⟨t, ?_⟩
      rw [← ht]
      simp
    · exact Or.inl he
  · rintro (he | ⟨t, ht⟩)
    · exact Or.inr he
    · refine Or.inl ⟨t, ?_⟩
      rw [ht]
      simp

/-- C2 witness: the characterization applied to pattern `docs/` and file
`docs/readme.md`. -/
theorem directory_pattern_boundary_witness :
    (lstripSlashes (chars "docs/")).getLast? = some '/' ∧
    (matchesRule (chars "docs/readme.md") (chars "docs/") = true ↔
      chars "docs/readme.md" = rstripSlashes (lstripSlashes (chars "docs/")) ∨
      ∃ rest, chars "docs/readme.md" =
        rstripSlashes (lstripSlashes (chars "docs/")) ++ '/' :: rest) :=
  ⟨by decide, directory_pattern_boundary.1 (chars "docs/readme.md") (chars "docs/") (by decide)⟩

/-- C3 counterexample: the claim's concrete instance is false — the
matcher's glob wildcard DOES cross the path separator, because Python's
`fnmatch` translates `*` into the regex `.*`; `*.md` matches
`docs/readme.md`. -/
theorem glob_crosses_separator_cex :
    ¬ (matchesRule (chars "readme.md") (chars "*.md") = true ∧
       matchesRule (chars "docs/readme.md") (chars "*.md") = false) := by
  decide

/-- C3 amended: for glob patterns the wildcard crosses path-separator
boundaries: `*.md` matches `readme.md` AND `docs/readme.md`. -/
theorem glob_crosses_separator :
    matchesRule (chars "readme.md") (chars "*.md") = true ∧
    matchesRule (chars "docs/readme.md") (chars "*.md") = true := by
  decide

/-- C4 counterexample: deduplication happens on RAW owner tokens before
resolution, so the two distinct tokens `@alice` and `alice` both survive
`match_files_to_reviewers` and resolve to the same username, leaving a
duplicate in the list handed to the requester. -/
theorem resolved_duplicates_cex :
    resolve_reviewers (fun _ => none)
        (match_files_to_reviewers [chars "f"]
          [(chars "f", [chars "@alice", chars "alice"])])
      = ([chars "alice", chars "alice"], [])
    ∧ ¬ (resolve_reviewers (fun _ => none)
        (match_files_to_reviewers [chars "f"]
          [(chars "f", [chars "@alice", chars "alice"])])).1.Nodup := by
  exact ⟨by decide, by decide⟩

/-- C4 amended: deduplication is a first-occurrence-preserving set
operation over the RAW owner tokens (performed in
`match_files_to_reviewers`, before resolution): the candidate token list
never contains a duplicate token, and the same token matched via
different rules for different files collapses to one entry; the resolved
lists may still repeat an identity when distinct raw tokens denote it. -/
theorem dedup_raw_tokens :
    (∀ files rules, (match_files_to_reviewers files rules).Nodup)
    ∧ match_files_to_reviewers [chars "a.md", chars "b.md"]
        [(chars "a.md", [chars "@alice"]), (chars "b.md", [chars "@alice"])]
      = [chars "@alice"] :=
  ⟨fun _ _ => dedupAux_nodup _ _, by decide⟩

/-- C5 counterexample: a token containing `/` but not starting with `@`
is NOT classified as a team — `resolve_reviewers` files `org/team` under
the plain-username fallback, leaving the team list empty, contrary to the
claimed "contains `/` ⇒ team" rule. -/
theorem slash_without_at_is_username_cex :
    (chars "org/team").contains '/' = true
    ∧ resolve_reviewers (fun _ => none) [chars "org/team"] = ([chars "org/team"], [])
    ∧ resolve_reviewers (fun _ => none) [chars "org/team"] ≠ ([], [chars "org/team"]) := by
  exact ⟨by decide, by decide, by decide⟩

/-- C5 amended: classification is purely lexical, first match wins, in
this order: token starts with `@` AND contains `/` ⇒ team (leading `@`
stripped); otherwise starts with `@` ⇒ username (leading `@` stripped);
otherwise matches the email regex ⇒ email, resolved via lookup (dropped
on failure); otherwise ⇒ username, kept verbatim.  `resolve_reviewers`
is exactly the per-token `classify` mapped over the input. -/
theorem classification_order :
    (∀ lookup ts, resolve_reviewers lookup ts =
      (ts.filterMap (fun r => userPart (classify lookup r)),
       ts.filterMap (fun r => teamPart (classify lookup r))))
    ∧ resolve_reviewers (fun _ => none) [chars "@org/team"] = ([], [chars "org/team"])
    ∧ resolve_reviewers (fun _ => none) [chars "@alice"] = ([chars "alice"], [])
    ∧ resolve_reviewers (fun _ => some (chars "bob")) [chars "a@b.co"] = ([chars "bob"], []) :=
  ⟨resolve_filterMap, by decide, by decide, by decide⟩

/-- C6: before submission the PR author is removed from the reviewer
list by exact string comparison, teams are passed through untouched, and
when both resulting lists are empty no request is made — the outcome is
the benign `nothingToAssign` report, not an error. -/
theorem author_filter_and_empty_noop :
    (∀ reviewers teams pr_author rs ts,
        assign_reviewers reviewers teams pr_author = AssignAction.submit rs ts →
          pr_author ∉ rs ∧ ts = teams)
    ∧ (∀ reviewers teams pr_author,
        reviewers.filter (fun r => r != pr_author) = [] → teams = [] →
          assign_reviewers reviewers teams pr_author = AssignAction.nothingToAssign)
    ∧ (∀ reviewers teams pr_author, teams ≠ [] →
        assign_reviewers reviewers teams pr_author =
          AssignAction.submit (reviewers.filter (fun r => r != pr_author)) teams) := by
  refine ⟨?_, ?_, ?_⟩
  · intro reviewers teams pr_author rs ts h
    unfold assign_reviewers at h
    dsimp only at h
    split at h
    · exact absurd h (by simp)
    · injection h with h1 h2
      subst h1
      subst h2
      refine ⟨?_, rfl⟩
      intro hmem
      have := (List.mem_filter.mp hmem).2
      simp at this
  · intro reviewers teams pr_author h1 h2
    unfold assign_reviewers
    rw [h1, h2]
    simp
  · intro reviewers teams pr_author h
    unfold assign_reviewers
    dsimp only
    have : teams.isEmpty = false := by
      rw [Bool.eq_false_iff]
      intro hc
      exact h (List.isEmpty_iff.mp hc)
    rw [this, Bool.and_false, if_neg (by simp)]

/-- C6 witness: when the only matched reviewer is the PR author and there
are no teams, the requester performs no call. -/
theorem author_filter_and_empty_noop_witness :
    [chars "alice"].filter (fun r => r != chars "alice") = []
    ∧ assign_reviewers [chars "alice"] [] (chars "alice") = AssignAction.nothingToAssign :=
  ⟨by decide,
   author_filter_and_empty_noop.2.1 [chars "alice"] [] (chars "alice") (by decide) rfl⟩

/-- C7 counterexample: under a permanently rate-limited user-search
endpoint, `email_to_username` issues FOUR search attempts (the initial
one plus three retries), not three in total; and after the retry budget
is spent the token is not simply dropped — the commit-search fallback
still runs and can resolve it. -/
theorem rate_limit_four_attempts_cex :
    (email_to_username (fun _ => UserSearch.rateLimited) none 0).attempts = 4
    ∧ (email_to_username (fun _ => UserSearch.rateLimited) (some (chars "bob")) 0).result
      = some (chars "bob") :=
  ⟨rfl, rfl⟩

/-- C7 amended: each rate-limit signal with retry budget left causes one
fixed 60-second wait and a retry; starting from `retry_count = 0` a
permanently rate-limited endpoint yields exactly 4 attempts and 180
seconds of backoff, after which the result is whatever the
commit-search fallback gives (the token is dropped only when that also
fails); the failure is never fatal — an unresolvable email token leaves
the resolution of the remaining tokens unchanged. -/
theorem rate_limit_retry_behavior :
    (∀ commit, email_to_username (fun _ => UserSearch.rateLimited) commit 0 =
      ⟨commit, 4, 180⟩)
    ∧ (∀ rest, resolve_reviewers (fun _ => none) (chars "a@b.co" :: rest) =
        resolve_reviewers (fun _ => none) rest) :=
  ⟨fun _ => rfl, fun _ => rfl⟩

/-- C8: `parse_reviewers_file` processes the file's lines in order and
returns the rules in declaration order; per line it skips blank lines
and lines whose first non-whitespace character is `#`, splits the rest
on whitespace into pattern followed by owners, and silently skips lines
with fewer than two tokens — i.e. parsing is exactly `parseLineSpec`
mapped over the lines. -/
theorem parse_processes_lines_in_order :
    ∀ contents, parse_reviewers_file contents =
      (splitLines contents).filterMap parseLineSpec :=
  parse_eq_filterMap

/-- C9 counterexample: normalization does NOT strip exactly one leading
slash — the source's `lstrip('/')` strips them all, so for pattern
`//a` and file `a` the strip-exactly-one reading predicts no match
while the code matches. -/
theorem strip_one_slash_cex :
    matchesRuleStripOne (chars "a") (chars "//a") = false
    ∧ matchesRule (chars "a") (chars "//a") = true :=
  ⟨by decide, by decide⟩

/-- C9 amended: pattern normalization strips ALL leading `/` characters
(and nothing else), so prepending a `/` to a pattern never changes which
files it matches — rooted and unrooted patterns behave identically — and
normalization is idempotent. -/
theorem leading_slash_invariance :
    (∀ f p, matchesRule f ('/' :: p) = matchesRule f p)
    ∧ (∀ f p, matchesRule f p = matchesRule f (lstripSlashes p)) := by
  constructor
  · intro f p
    have he : lstripSlashes ('/' :: p) = lstripSlashes p := by
      unfold lstripSlashes
      rw [List.dropWhile_cons]
      simp
    unfold matchesRule
    rw [he]
  · intro f p
    unfold matchesRule
    rw [lstripSlashes_idem]

/-- C10: every rule produced by parsing has a non-empty pattern and a
non-empty owner list — the pattern is a token of a whitespace split
(tokens are never empty) and the owners are the one-or-more remaining
tokens. -/
theorem parsed_rules_nonempty (contents : Chars) (r : RuleT)
    (h : r ∈ parse_reviewers_file contents) : r.1 ≠ [] ∧ r.2 ≠ [] := by
  rw [parse_eq_filterMap] at h
  obtain ⟨line, hline, hsome⟩ := List.mem_filterMap.mp h
  unfold parseLineSpec at hsome
  split at hsome
  · exact absurd hsome (by simp)
  · split at hsome
    · exact absurd hsome (by simp)
    · split at hsome
      · rename_i p o os heq
        injection hsome with hr
        subst hr
        refine ⟨?_, by simp⟩
        exact pySplit_mem_ne_nil (by rw [heq]; exact List.mem_cons_self p (o :: os))
      · exact absurd hsome (by simp)

/-- C10 witness: the invariant applied to a concrete parsed rule. -/
theorem parsed_rules_nonempty_witness :
    (chars "src/", [chars "@alice"]) ∈ parse_reviewers_file (chars "src/ @alice")
    ∧ chars "src/" ≠ [] ∧ [chars "@alice"] ≠ [] := by
  refine ⟨by decide, ?_⟩
  exact parsed_rules_nonempty (chars "src/ @alice") (chars "src/", [chars "@alice"]) (by decide)
